import Mathlib

/-!
Verification of the ManfanOCR pipeline (`manfan.py`): a shallow embedding of
the spatial clustering of OCR boxes (`Page.make_groups` together with
`BoxGroup.find_next_neighbor`), region assembly (`BoxGroup.finish_init`),
confidence filtering (`Page.load_boxes`), the batch driver (`Pager.run`),
the rectangle overlap test (`Box.overlaps`) and the greedy word wrapper
(`Drawer.get_wrapped_text`).

Text is represented as `List Char`.  Pixel coordinates are integers,
confidence scores are rationals.  The recursive neighbor search is embedded
with an explicit recursion-depth budget (`fuel`); the theorems show that a
budget equal to the number of boxes is always enough, so the embedded
function agrees with the Python recursion (which is bounded by the strictly
growing `processed_boxes` list).
-/

/-! ### Python string primitives: `str.strip()` and `str.split()` -/

/-- The whitespace characters recognised by Python's `str.strip` / `str.split`
(ASCII part, which is all the program relies on). -/
def pyWS (c : Char) : Bool :=
  c = ' ' || c = '\t' || c = '\n' || c = '\r' || c = '\x0b' || c = '\x0c'

/-- Python `s.strip()`: remove leading and trailing whitespace. -/
def pyStrip (l : List Char) : List Char :=
  ((l.dropWhile pyWS).reverse.dropWhile pyWS).reverse

/-- Worker for `pySplit`; `w` is the reversed current word. -/
def pySplitAux : List Char → List Char → List (List Char)
  | [], w => if w.isEmpty then [] else [w.reverse]
  | c :: cs, w =>
    if pyWS c then
      if w.isEmpty then pySplitAux cs [] else w.reverse :: pySplitAux cs []
    else pySplitAux cs (c :: w)

/-- Python `s.split()` with no argument: split on whitespace runs, dropping
empty pieces. -/
def pySplit (t : List Char) : List (List Char) :=
  pySplitAux t []

/-- A word as produced by `pySplit`: nonempty and free of whitespace. -/
def goodWord (w : List Char) : Prop :=
  w ≠ [] ∧ ∀ c ∈ w, pyWS c = false

/-- Join words with single spaces (the shape `' '.join`-style candidates
built by the wrapper take). -/
def joinSp : List (List Char) → List Char
  | [] => []
  | [w] => w
  | w :: ws => w ++ ' ' :: joinSp ws

/-- Python `'\n'.join(lines)`. -/
def joinNL : List (List Char) → List Char
  | [] => []
  | [l] => l
  | l :: ls => l ++ '\n' :: joinNL ls

/-! ### The data model: `Box` and `BoxGroup` (from `manfan.py`) -/

/-- One OCR fragment (`class Box`): held as `{x, y, w, h}` plus text and
confidence score. -/
structure Box where
  x : ℤ
  y : ℤ
  w : ℤ
  h : ℤ
  text : List Char
  score : ℚ
deriving DecidableEq

/-- `Box.__init__`: built from a `[x1, y1, x2, y2]` corner box. -/
def Box.make (text : List Char) (b : ℤ × ℤ × ℤ × ℤ) (score : ℚ) : Box :=
  { x := b.1, w := b.2.2.1 - b.1, y := b.2.1, h := b.2.2.2 - b.2.1,
    text := text, score := score }

/-- `Box.overlaps`: the AABB intersection-or-touching test of the source. -/
def Box.overlaps (s o : Box) : Bool :=
  decide (s.x ≤ o.x + o.w) && decide (s.x + s.w ≥ o.x) &&
  decide (s.y ≤ o.y + o.h) && decide (s.y + s.h ≥ o.y)

/-- `class BoxGroup`: a cluster of fragments.  `full_box` holds
`(X1, Y1, X2, Y2)` after `__init__` and `(X, Y, W, H)` after `finish_init`. -/
structure BoxGroup where
  boxes : List Box
  full_text : List Char
  full_box : ℤ × ℤ × ℤ × ℤ
  translation : List Char
deriving DecidableEq

/-- `BoxGroup.__init__(box)`. -/
def BoxGroup.init (b : Box) : BoxGroup :=
  { boxes := [b], full_text := [],
    full_box := (b.x, b.y, b.x + b.w, b.y + b.h), translation := [] }

/-- `BoxGroup.finish_init`: append members' stripped texts in reverse
insertion order, then fold the enclosing rectangle and convert the two max
corners into width/height. -/
def BoxGroup.finish_init (g : BoxGroup) : BoxGroup :=
  let ft := g.boxes.reverse.foldl (fun acc b => acc ++ pyStrip b.text) g.full_text
  let fb := g.boxes.foldl
    (fun fb b =>
      (min b.x fb.1, min b.y fb.2.1, max (b.x + b.w) fb.2.2.1, max (b.y + b.h) fb.2.2.2))
    g.full_box
  { g with full_text := ft,
           full_box := (fb.1, fb.2.1, fb.2.2.1 - fb.1, fb.2.2.2 - fb.2.1) }

/-! ### Clustering: `BoxGroup.find_next_neighbor` and `Page.make_groups`

Boxes are addressed by their index in the page's box list (membership tests
in Python use object identity, which index addressing models exactly).  The
state is the pair `(group members, processed_boxes)`, both in append order.
`fuel` bounds the recursion depth; `fuel = n` is proved sufficient. -/

/-- `BoxGroup.find_next_neighbor`: scan all boxes in order; every unclaimed
box overlapping the current one is appended to the group and to
`processed_boxes` and recursively expanded before the scan continues. -/
def find_next_neighbor {n : ℕ} (B : Fin n → Box) :
    ℕ → Fin n → List (Fin n) × List (Fin n) → List (Fin n) × List (Fin n)
  | 0, _, st => st
  | fuel + 1, i, st =>
    (List.finRange n).foldl
      (fun st' j =>
        if (B j).overlaps (B i) = true ∧ j ∉ st'.2 then
          find_next_neighbor B fuel j (st'.1 ++ [j], st'.2 ++ [j])
        else st') st

/-- One step of the scanning loop inside `find_next_neighbor`. -/
def fnnStep {n : ℕ} (B : Fin n → Box) (fuel : ℕ) (i : Fin n)
    (st : List (Fin n) × List (Fin n)) (j : Fin n) : List (Fin n) × List (Fin n) :=
  if (B j).overlaps (B i) = true ∧ j ∉ st.2 then
    find_next_neighbor B fuel j (st.1 ++ [j], st.2 ++ [j])
  else st

theorem find_next_neighbor_succ {n : ℕ} (B : Fin n → Box) (fuel : ℕ) (i : Fin n)
    (st : List (Fin n) × List (Fin n)) :
    find_next_neighbor B (fuel + 1) i st = (List.finRange n).foldl (fnnStep B fuel i) st := rfl

/-- The loop of `Page.make_groups`: each box not yet claimed seeds a new
group, is marked processed, and the group is grown by
`find_next_neighbor`. -/
def make_groupsAux {n : ℕ} (B : Fin n → Box) (fuel : ℕ) :
    List (Fin n) → List (List (Fin n)) → List (Fin n) →
    List (List (Fin n)) × List (Fin n)
  | [], groups, proc => (groups, proc)
  | b :: bs, groups, proc =>
    if b ∉ proc then
      let r := find_next_neighbor B fuel b ([b], proc ++ [b])
      make_groupsAux B fuel bs (groups ++ [r.1]) r.2
    else make_groupsAux B fuel bs groups proc

/-- `Page.make_groups` at a given recursion budget, as index lists. -/
def make_groupsIdxF {n : ℕ} (B : Fin n → Box) (fuel : ℕ) : List (List (Fin n)) :=
  (make_groupsAux B fuel (List.finRange n) [] []).1

/-- `Page.make_groups` as index lists (budget `n`, which suffices). -/
def make_groupsIdx {n : ℕ} (B : Fin n → Box) : List (List (Fin n)) :=
  make_groupsIdxF B n

/-- Build the `BoxGroup` of one index group: seeded from its first member
(`BoxGroup.__init__`), the remaining members appended by the traversal, and
finished by `finish_init`. -/
def seededGroup (b : Box) (rest : List Box) : BoxGroup :=
  BoxGroup.finish_init { BoxGroup.init b with boxes := b :: rest }

def groupOf {n : ℕ} (B : Fin n → Box) : List (Fin n) → BoxGroup
  | [] => BoxGroup.finish_init { boxes := [], full_text := [], full_box := (0, 0, 0, 0), translation := [] }
  | s :: rest => seededGroup (B s) (rest.map B)

/-- `Page.make_groups` on a page's box list, producing finished groups. -/
def Page.make_groups (boxes : List Box) : List BoxGroup :=
  (make_groupsIdx (fun i => boxes.get i)).map (groupOf (fun i => boxes.get i))

/-! ### `Page.load_boxes`, `Page.run` and `Pager.run` -/

/-- `Page.SCORE_THRESHOLD`, the constant 0.75 (see `SCORE_THRESHOLD_eq`). -/
def SCORE_THRESHOLD : ℚ := mkRat 3 4

/-- The embedded threshold is the source constant `0.75`. -/
theorem SCORE_THRESHOLD_eq : SCORE_THRESHOLD = 0.75 := by
  rw [SCORE_THRESHOLD, Rat.mkRat_eq_div]
  norm_num

/-- The parsed OCR result record: three parallel arrays. -/
structure OCRData where
  rec_texts : List (List Char)
  rec_scores : List ℚ
  rec_boxes : List (ℤ × ℤ × ℤ × ℤ)
deriving DecidableEq

/-- The loop of `Page.load_boxes` over `range(len(rec_texts))`; index errors
from mismatched array lengths surface as `Except.error` (Python
`IndexError`). -/
def load_boxesAux (d : OCRData) : List ℕ → List Box → Except Unit (List Box)
  | [], acc => Except.ok acc
  | i :: is, acc =>
    match d.rec_scores[i]? with
    | none => Except.error ()
    | some s =>
      if SCORE_THRESHOLD ≤ s then
        match d.rec_texts[i]?, d.rec_boxes[i]? with
        | some t, some bx => load_boxesAux d is (acc ++ [Box.make t bx s])
        | _, _ => Except.error ()
      else load_boxesAux d is acc

/-- `Page.load_boxes`: keep the detections whose score passes the threshold. -/
def load_boxes (d : OCRData) : Except Unit (List Box) :=
  load_boxesAux d (List.range d.rec_texts.length) []

/-- The filter/map that `load_boxes` is claimed to implement, written from
the spec's words over the zipped parallel arrays. -/
def load_boxesSpec (d : OCRData) : List Box :=
  ((d.rec_texts.zip (d.rec_scores.zip d.rec_boxes)).filter
      (fun p => decide (SCORE_THRESHOLD ≤ p.2.1))).map
    (fun p => Box.make p.1 p.2.2 p.2.1)

/-- `Page.run` for one page: `load_data` (`none` models a missing or keyless
record, raising in Python), then `load_boxes`, then `make_groups`. -/
def Page.run (input : Option OCRData) : Except Unit (List BoxGroup) :=
  match input with
  | none => Except.error ()
  | some d =>
    match load_boxes d with
    | Except.error e => Except.error e
    | Except.ok boxes => Except.ok (Page.make_groups boxes)

/-- `Pager.run`: process the batch in order.  There is no exception handler
in the source loop, so a failing page aborts the whole run. -/
def Pager.run : List (Option OCRData) → Except Unit (List (List BoxGroup))
  | [] => Except.ok []
  | p :: ps =>
    match Page.run p with
    | Except.error e => Except.error e
    | Except.ok gs =>
      match Pager.run ps with
      | Except.error e => Except.error e
      | Except.ok rest => Except.ok (gs :: rest)

/-! ### `Drawer.get_wrapped_text` -/

/-- One step of the wrapping loop: try to extend the last line with the next
word; on overflow start a new line holding just the word. -/
def wrapStep (f : List Char → ℤ) (width : ℤ)
    (lines : List (List Char)) (word : List Char) : List (List Char) :=
  let line := pyStrip (lines.getLastD [] ++ ' ' :: word)
  if f line ≤ width then lines.dropLast ++ [line] else lines ++ [word]

/-- The list of lines built by `Drawer.get_wrapped_text` (measurement
capability `f`, target `width`). -/
def wrappedLines (f : List Char → ℤ) (width : ℤ) (text : List Char) : List (List Char) :=
  (pySplit text).foldl (wrapStep f width) [[]]

/-- `Drawer.get_wrapped_text`: the produced lines joined by line breaks. -/
def get_wrapped_text (f : List Char → ℤ) (width : ℤ) (text : List Char) : List Char :=
  joinNL (wrappedLines f width text)

/-! ### Claim C8: overlap symmetry and characterisation -/

/-- Claim C8: `Box.overlaps` is symmetric, and it holds exactly on the AABB
intersection-or-touching test `A.x ≤ B.x+B.w ∧ A.x+A.w ≥ B.x ∧
A.y ≤ B.y+B.h ∧ A.y+A.h ≥ B.y` (touching edges count as overlapping). -/
theorem overlaps_symm_and_spec (A B : Box) :
    A.overlaps B = B.overlaps A ∧
    (A.overlaps B = true ↔
      (A.x ≤ B.x + B.w ∧ A.x + A.w ≥ B.x ∧ A.y ≤ B.y + B.h ∧ A.y + A.h ≥ B.y)) := by
  constructor
  · rw [Bool.eq_iff_iff]
    simp only [Box.overlaps, Bool.and_eq_true, decide_eq_true_eq]
    omega
  · simp only [Box.overlaps, Bool.and_eq_true, decide_eq_true_eq, ge_iff_le]
    tauto

/-! ### Facts about `pySplit`, `pyStrip` and `joinSp` -/

theorem pySplitAux_good : ∀ (t w : List Char), (∀ c ∈ w, pyWS c = false) →
    ∀ x ∈ pySplitAux t w, goodWord x := by
  intro t
  induction t with
  | nil =>
    intro w hw x hx
    simp only [pySplitAux] at hx
    split at hx
    · simp at hx
    · rename_i hne
      simp only [List.mem_singleton] at hx
      subst hx
      rw [List.isEmpty_iff] at hne
      exact ⟨by simpa using hne, fun c hc => hw c (List.mem_reverse.mp hc)⟩
  | cons c cs ih =>
    intro w hw x hx
    simp only [pySplitAux] at hx
    by_cases hc : pyWS c = true
    · rw [if_pos hc] at hx
      split at hx
      · exact ih [] (by simp) x hx
      · rename_i hne
        rw [List.isEmpty_iff] at hne
        rcases List.mem_cons.mp hx with rfl | hx'
        · exact ⟨by simpa using hne, fun d hd => hw d (List.mem_reverse.mp hd)⟩
        · exact ih [] (by simp) x hx'
    · rw [if_neg hc] at hx
      refine ih (c :: w) ?_ x hx
      intro d hd
      rcases List.mem_cons.mp hd with rfl | hd'
      · exact Bool.not_eq_true _ ▸ hc
      · exact hw d hd'

theorem pySplit_good (t : List Char) : ∀ x ∈ pySplit t, goodWord x :=
  pySplitAux_good t [] (by simp)

theorem pySplit_eq_nil_of_ws (t : List Char) (h : ∀ c ∈ t, pyWS c = true) :
    pySplit t = [] := by
  unfold pySplit
  induction t with
  | nil => simp [pySplitAux]
  | cons c cs ih =>
    simp only [pySplitAux, if_pos (h c (List.mem_cons_self c cs)), List.isEmpty_nil, if_pos]
    exact ih fun d hd => h d (List.mem_cons_of_mem c hd)

theorem dropWhile_pyWS_eq_self (l : List Char)
    (h : ∀ c, l.head? = some c → pyWS c = false) : l.dropWhile pyWS = l := by
  cases l with
  | nil => rfl
  | cons c cs => rw [List.dropWhile_cons, if_neg (by simp [h c rfl])]

theorem dropWhile_reverse_pyWS_eq_self (l : List Char)
    (h : ∀ c, l.getLast? = some c → pyWS c = false) :
    l.reverse.dropWhile pyWS = l.reverse := by
  rcases l.eq_nil_or_concat with rfl | ⟨ys, y, rfl⟩
  · rfl
  · rw [List.concat_eq_append] at h ⊢
    rw [List.reverse_append, List.reverse_singleton, List.singleton_append,
      List.dropWhile_cons, if_neg (by simp [h y (List.getLast?_concat ys)])]

/-- `strip` is the identity on a string with no leading and no trailing
whitespace. -/
theorem pyStrip_eq_self (l : List Char)
    (h1 : ∀ c, l.head? = some c → pyWS c = false)
    (h2 : ∀ c, l.getLast? = some c → pyWS c = false) : pyStrip l = l := by
  unfold pyStrip
  rw [dropWhile_pyWS_eq_self l h1, dropWhile_reverse_pyWS_eq_self l h2,
    List.reverse_reverse]

theorem pyStrip_of_all_not_ws (l : List Char) (h : ∀ c ∈ l, pyWS c = false) :
    pyStrip l = l :=
  pyStrip_eq_self l
    (fun c hc => h c (by cases l with | nil => simp at hc | cons a t => simp_all))
    (fun c hc => h c (List.mem_of_getLast?_eq_some hc))

theorem pyStrip_space_cons (w : List Char) (h : ∀ c ∈ w, pyWS c = false) :
    pyStrip (' ' :: w) = w := by
  unfold pyStrip
  rw [List.dropWhile_cons, if_pos (by simp [pyWS]),
    show w.dropWhile pyWS = w from
      dropWhile_pyWS_eq_self w (fun c hc => h c (by cases w with | nil => simp at hc | cons a t => simp_all)),
    dropWhile_reverse_pyWS_eq_self w (fun c hc => h c (List.mem_of_getLast?_eq_some hc)),
    List.reverse_reverse]

theorem joinSp_cons_cons (w v : List Char) (ws : List (List Char)) :
    joinSp (w :: v :: ws) = w ++ ' ' :: joinSp (v :: ws) := rfl

theorem joinSp_concat : ∀ (ds : List (List Char)) (w : List Char), ds ≠ [] →
    joinSp (ds ++ [w]) = joinSp ds ++ ' ' :: w := by
  intro ds
  induction ds with
  | nil => intro w h; exact absurd rfl h
  | cons d dt ih =>
    intro w _
    cases dt with
    | nil => rfl
    | cons e es =>
      have h1 : (d :: e :: es) ++ [w] = d :: e :: (es ++ [w]) := rfl
      have h2 : e :: (es ++ [w]) = (e :: es) ++ [w] := rfl
      rw [h1, joinSp_cons_cons, h2, ih w (by simp), joinSp_cons_cons]
      simp [List.append_assoc]

theorem joinSp_head? (d : List Char) (ds : List (List Char)) (h : d ≠ []) :
    (joinSp (d :: ds)).head? = d.head? := by
  obtain ⟨c, cs, rfl⟩ := List.exists_cons_of_ne_nil h
  cases ds with
  | nil => rfl
  | cons e es => rw [joinSp_cons_cons]; rfl

theorem joinSp_getLast? (ds : List (List Char)) (w : List Char) (h : w ≠ []) :
    (joinSp (ds ++ [w])).getLast? = w.getLast? := by
  have hw : w.getLast?.isSome := List.getLast?_isSome.mpr h
  cases ds with
  | nil => simp [joinSp]
  | cons d dt =>
    rw [joinSp_concat _ _ (by simp), List.getLast?_append,
      show (' ' :: w) = [' '] ++ w from rfl, List.getLast?_append,
      Option.or_of_isSome hw, Option.or_of_isSome hw]

/-! ### Claims C6, C7, C10: the greedy word wrapper -/

theorem take_length_succ_append {α : Type} (l₁ : List α) (a : α) (l₂ : List α) :
    (l₁ ++ a :: l₂).take (l₁.length + 1) = l₁ ++ [a] := by
  induction l₁ with
  | nil => rfl
  | cons x xs ih => simpa [List.take_succ_cons] using ih

theorem wrapFold_inv (f : List Char → ℤ) (width : ℤ) (Q : List Char → Prop) :
    ∀ (ws lines : List (List Char)),
      (∀ w ∈ ws, Q w) →
      (∀ l ∈ lines, f l ≤ width ∨ Q l ∨ l = []) →
      ∀ l ∈ ws.foldl (wrapStep f width) lines, f l ≤ width ∨ Q l ∨ l = [] := by
  intro ws
  induction ws with
  | nil => intro lines _ hl l hl2; exact hl l hl2
  | cons w ws ih =>
    intro lines hw hl l hl2
    rw [List.foldl_cons] at hl2
    refine ih _ (fun v hv => hw v (List.mem_cons_of_mem _ hv)) ?_ l hl2
    intro m hm
    simp only [wrapStep] at hm
    split at hm
    · rcases List.mem_append.mp hm with hmd | hms
      · exact hl m (List.dropLast_subset lines hmd)
      · rename_i hcond
        simp only [List.mem_singleton] at hms
        subst hms; exact Or.inl hcond
    · rcases List.mem_append.mp hm with hmo | hms
      · exact hl m hmo
      · simp only [List.mem_singleton] at hms
        exact Or.inr (Or.inl (by rw [hms]; exact hw _ (List.mem_cons_self _ _)))

/-- Claim C6 (amended): every line produced by `Drawer.get_wrapped_text`
measures within the target width, unless it is a single whitespace-delimited
word of the input (whose own measured width then exceeds the target), or it
is the leading empty line (left empty when the very first word already
overflows, or when the input has no words). -/
theorem wrapped_line_within_width (f : List Char → ℤ) (width : ℤ) (text : List Char) :
    ∀ l ∈ wrappedLines f width text, f l ≤ width ∨ l ∈ pySplit text ∨ l = [] :=
  wrapFold_inv f width (· ∈ pySplit text) (pySplit text) [[]]
    (fun _ hw => hw) (by simp)

/-- Witness for `wrapped_line_within_width` at a concrete input: wrapping
"ab cd" at width 3 with the length measure produces the line "cd". -/
theorem wrapped_line_within_width_witness :
    (['c', 'd'] ∈ wrappedLines (fun l => (l.length : ℤ)) 3 ['a', 'b', ' ', 'c', 'd']) ∧
      ((fun l => (l.length : ℤ)) ['c', 'd'] ≤ 3 ∨
        ['c', 'd'] ∈ pySplit ['a', 'b', ' ', 'c', 'd'] ∨ (['c', 'd'] : List Char) = []) :=
  ⟨by decide,
    wrapped_line_within_width (fun l => (l.length : ℤ)) 3 ['a', 'b', ' ', 'c', 'd']
      ['c', 'd'] (by decide)⟩

/-- Claim C6 as stated is false: with the (admissible) measurement function
that is constantly 1 and target width 0, input "a" yields a leading empty
line whose measured width exceeds the target although it is not a single
word of the input. -/
theorem wrapped_line_width_cex :
    ¬ (∀ l ∈ wrappedLines (fun _ => (1 : ℤ)) 0 ['a'],
        (fun _ => (1 : ℤ)) l ≤ 0 ∨ (l ∈ pySplit ['a'] ∧ 0 < (fun _ => (1 : ℤ)) l)) := by
  decide

/-- The candidate the wrapper builds from the joined current line and the
next word is exactly the space-join of the extended word list. -/
theorem wrap_candidate_eq (done : List (List Char)) (w : List Char)
    (hgood : ∀ v ∈ done ++ [w], goodWord v) :
    pyStrip (joinSp done ++ ' ' :: w) = joinSp (done ++ [w]) := by
  have hw : goodWord w := hgood w (by simp)
  cases done with
  | nil =>
    simp only [joinSp, List.nil_append]
    exact pyStrip_space_cons w hw.2
  | cons d dt =>
    rw [← joinSp_concat (d :: dt) w (by simp)]
    refine pyStrip_eq_self _ ?_ ?_
    · intro c hc
      have hd : goodWord d := hgood d (by simp)
      rw [show (d :: dt) ++ [w] = d :: (dt ++ [w]) from rfl,
        joinSp_head? d (dt ++ [w]) hd.1] at hc
      exact hd.2 c (List.mem_of_mem_head? (hc ▸ Option.mem_def.mpr rfl))
    · intro c hc
      rw [joinSp_getLast? (d :: dt) w hw.1] at hc
      exact hw.2 c (List.mem_of_getLast?_eq_some hc)

theorem wrapFold_fit (f : List Char → ℤ) (width : ℤ) :
    ∀ (ws done : List (List Char)),
      (∀ v ∈ done ++ ws, goodWord v) →
      (∀ k, k < (done ++ ws).length → f (joinSp ((done ++ ws).take (k + 1))) ≤ width) →
      ws.foldl (wrapStep f width) [joinSp done] = [joinSp (done ++ ws)] := by
  intro ws
  induction ws with
  | nil => intro done _ _; rw [List.foldl_nil, List.append_nil]
  | cons w ws ih =>
    intro done hgood hfit
    have hcand : pyStrip (joinSp done ++ ' ' :: w) = joinSp (done ++ [w]) :=
      wrap_candidate_eq done w (fun v hv => by
        rcases List.mem_append.mp hv with h1 | h2
        · exact hgood v (List.mem_append.mpr (Or.inl h1))
        · simp only [List.mem_singleton] at h2
          exact hgood v (h2 ▸ List.mem_append.mpr (Or.inr (List.mem_cons_self _ _))))
    have hfitc : f (joinSp (done ++ [w])) ≤ width := by
      have := hfit done.length (by simp)
      rwa [take_length_succ_append done w ws] at this
    rw [List.foldl_cons]
    have hstep : wrapStep f width [joinSp done] w = [joinSp (done ++ [w])] := by
      unfold wrapStep
      simp only [List.getLastD_cons, List.getLastD_nil, hcand]
      rw [if_pos hfitc]
      rfl
    rw [hstep]
    have hrw : (done ++ [w]) ++ ws = done ++ w :: ws := by simp
    have := ih (done ++ [w]) (by rw [hrw]; exact hgood) (by rw [hrw]; exact hfit)
    rwa [hrw] at this

/-- Claim C7 (amended): if every leading run of the input's words, joined by
single spaces, measures within the target width (as is the case for any
length-monotone measurement when the whole line fits), then
`Drawer.get_wrapped_text` returns exactly one line, namely the input's words
joined by single spaces — which coincides with the stripped input exactly
when the input's internal whitespace consists of single spaces. -/
theorem wrapped_short_text_single_line (f : List Char → ℤ) (width : ℤ) (text : List Char)
    (hfit : ∀ k, k < (pySplit text).length →
      f (joinSp ((pySplit text).take (k + 1))) ≤ width) :
    wrappedLines f width text = [joinSp (pySplit text)] := by
  have h := wrapFold_fit f width (pySplit text) []
    (fun v hv => pySplit_good text v (by simpa using hv)) (by simpa using hfit)
  simpa [wrappedLines, joinSp] using h

/-- Witness for `wrapped_short_text_single_line`: wrapping " ab c " at width
5 under the length measure gives the single line "ab c". -/
theorem wrapped_short_text_single_line_witness :
    wrappedLines (fun l => (l.length : ℤ)) 5 [' ', 'a', 'b', ' ', 'c', ' '] =
      [joinSp (pySplit [' ', 'a', 'b', ' ', 'c', ' '])] :=
  wrapped_short_text_single_line (fun l => (l.length : ℤ)) 5
    [' ', 'a', 'b', ' ', 'c', ' '] (by decide)

/-- Claim C7 as stated is false: the input "a  b" (two inner spaces) has
measured length 4 ≤ 4, yet the wrapper returns the single line "a b", which
is not the stripped input. -/
theorem wrapped_short_text_cex :
    (fun l => (l.length : ℤ)) ['a', ' ', ' ', 'b'] ≤ 4 ∧
      wrappedLines (fun l => (l.length : ℤ)) 4 ['a', ' ', ' ', 'b'] ≠
        [pyStrip ['a', ' ', ' ', 'b']] := by
  decide

theorem wrapStep_eq (f : List Char → ℤ) (width : ℤ) (lines : List (List Char))
    (word : List Char) :
    wrapStep f width lines word =
      if f (pyStrip (lines.getLastD [] ++ ' ' :: word)) ≤ width
      then lines.dropLast ++ [pyStrip (lines.getLastD [] ++ ' ' :: word)]
      else lines ++ [word] := rfl

theorem wrapFold_head (f : List Char → ℤ) (width : ℤ) :
    ∀ (ws : List (List Char)) (x y : List Char) (rest : List (List Char)),
      ∃ r, ws.foldl (wrapStep f width) (x :: y :: rest) = x :: r ∧ r ≠ [] := by
  intro ws
  induction ws with
  | nil => exact fun x y rest => ⟨y :: rest, rfl, by simp⟩
  | cons w ws ih =>
    intro x y rest
    rw [List.foldl_cons, wrapStep_eq]
    split
    · rw [List.dropLast_cons₂, List.cons_append]
      rcases List.exists_cons_of_ne_nil
          (show (y :: rest).dropLast ++ [pyStrip ((x :: y :: rest).getLastD [] ++ ' ' :: w)] ≠ []
            from by simp) with ⟨a, t, he⟩
      rw [he]
      exact ih x a t
    · rw [List.cons_append, List.cons_append]
      exact ih x y (rest ++ [w])

/-- Claim C10: if the first word of the input already overflows the target
width, the first produced line is the empty string and the joined output
starts with a line break; an input with no words yields the single empty
line (joined output: the empty string). -/
theorem get_wrapped_text_edge_cases (f : List Char → ℤ) (width : ℤ) :
    (∀ (text w1 : List Char) (rest : List (List Char)),
        pySplit text = w1 :: rest → width < f w1 →
        ∃ r, wrappedLines f width text = [] :: r ∧ r ≠ [] ∧
          ∃ tl, get_wrapped_text f width text = '\n' :: tl) ∧
    (∀ text : List Char, (∀ c ∈ text, pyWS c = true) →
        wrappedLines f width text = [[]] ∧ get_wrapped_text f width text = []) := by
  constructor
  · intro text w1 rest hsplit hover
    have hw1 : goodWord w1 := pySplit_good text w1 (hsplit ▸ List.mem_cons_self _ _)
    have hstep : wrapStep f width [[]] w1 = [[], w1] := by
      have hline : pyStrip (([[]] : List (List Char)).getLastD [] ++ ' ' :: w1) = w1 := by
        rw [show (([[]] : List (List Char)).getLastD []) = ([] : List Char) from rfl,
          List.nil_append]
        exact pyStrip_space_cons w1 hw1.2
      rw [wrapStep_eq, hline, if_neg (by omega)]
      rfl
    have hlines : ∃ r, wrappedLines f width text = [] :: r ∧ r ≠ [] := by
      unfold wrappedLines
      rw [hsplit, List.foldl_cons, hstep]
      exact wrapFold_head f width rest [] w1 []
    rcases hlines with ⟨r, hr, hrne⟩
    refine ⟨r, hr, hrne, ?_⟩
    rcases List.exists_cons_of_ne_nil hrne with ⟨a, t, rfl⟩
    rw [get_wrapped_text, hr]
    exact ⟨joinNL (a :: t), rfl⟩
  · intro text hws
    have h1 : wrappedLines f width text = [[]] := by
      unfold wrappedLines
      rw [pySplit_eq_nil_of_ws text hws, List.foldl_nil]
    exact ⟨h1, by rw [get_wrapped_text, h1]; rfl⟩

/-- Witness for `get_wrapped_text_edge_cases`: wrapping "ab" at width 0 under
the length measure starts with an empty line and a line break; wrapping a
lone space yields the single empty line. -/
theorem get_wrapped_text_edge_cases_witness :
    (∃ r, wrappedLines (fun l => (l.length : ℤ)) 0 ['a', 'b'] = [] :: r ∧ r ≠ [] ∧
        ∃ tl, get_wrapped_text (fun l => (l.length : ℤ)) 0 ['a', 'b'] = '\n' :: tl) ∧
      (wrappedLines (fun l => (l.length : ℤ)) 5 [' '] = [[]] ∧
        get_wrapped_text (fun l => (l.length : ℤ)) 5 [' '] = []) :=
  ⟨(get_wrapped_text_edge_cases (fun l => (l.length : ℤ)) 0).1 ['a', 'b'] ['a', 'b'] []
      (by decide) (by decide),
    (get_wrapped_text_edge_cases (fun l => (l.length : ℤ)) 5).2 [' '] (by decide)⟩

/-! ### Claim C4: the confidence filter of `Page.load_boxes` -/

theorem load_boxesAux_shift (t : List Char) (ts : List (List Char)) (s : ℚ)
    (ss : List ℚ) (b : ℤ × ℤ × ℤ × ℤ) (bs : List (ℤ × ℤ × ℤ × ℤ)) :
    ∀ (idxs : List ℕ) (acc : List Box),
      load_boxesAux ⟨t :: ts, s :: ss, b :: bs⟩ (idxs.map Nat.succ) acc =
        load_boxesAux ⟨ts, ss, bs⟩ idxs acc := by
  intro idxs
  induction idxs with
  | nil => intro acc; rfl
  | cons i is ih =>
    intro acc
    simp only [List.map_cons, load_boxesAux, List.getElem?_cons_succ]
    cases hss : ss[i]? with
    | none => rfl
    | some sc =>
      dsimp only
      by_cases hth : SCORE_THRESHOLD ≤ sc
      · rw [if_pos hth, if_pos hth]
        cases hts : ts[i]? with
        | none => rfl
        | some tx =>
          cases hbs : bs[i]? with
          | none => rfl
          | some bx => exact ih (acc ++ [Box.make tx bx sc])
      · rw [if_neg hth, if_neg hth]
        exact ih acc

theorem load_boxesAux_range : ∀ (ts : List (List Char)) (ss : List ℚ)
    (bs : List (ℤ × ℤ × ℤ × ℤ)), ss.length = ts.length → bs.length = ts.length →
    ∀ acc : List Box,
      load_boxesAux ⟨ts, ss, bs⟩ (List.range ts.length) acc =
        Except.ok (acc ++ load_boxesSpec ⟨ts, ss, bs⟩) := by
  intro ts
  induction ts with
  | nil =>
    intro ss bs hss hbs acc
    rw [List.length_eq_zero.mp hss, List.length_eq_zero.mp hbs]
    simp [load_boxesAux, load_boxesSpec]
  | cons t ts ih =>
    intro ss bs hss hbs acc
    cases ss with
    | nil => simp at hss
    | cons s ss' =>
    cases bs with
    | nil => simp at hbs
    | cons b bs' =>
    rw [List.length_cons, List.range_succ_eq_map]
    simp only [load_boxesAux, List.getElem?_cons_zero]
    by_cases hth : SCORE_THRESHOLD ≤ s
    · rw [if_pos hth]
      rw [load_boxesAux_shift t ts s ss' b bs' (List.range ts.length) (acc ++ [Box.make t b s]),
        ih ss' bs' (by simpa using hss) (by simpa using hbs)]
      simp [load_boxesSpec, hth]
    · rw [if_neg hth,
        load_boxesAux_shift t ts s ss' b bs' (List.range ts.length) acc,
        ih ss' bs' (by simpa using hss) (by simpa using hbs)]
      simp [load_boxesSpec, hth]

/-- Claim C4: on a well-formed record, `Page.load_boxes` keeps a detection as
a fragment if and only if its score is at least 0.75 (the retained list is
the score-filtered zip of the parallel arrays, in order); in particular the
score list [0.9, 0.5, 0.75, 0.74999] retains exactly the first and third
detections. -/
theorem load_boxes_filter (d₁ : OCRData)
    (h1 : d₁.rec_scores.length = d₁.rec_texts.length)
    (h2 : d₁.rec_boxes.length = d₁.rec_texts.length) :
    load_boxes d₁ = Except.ok (load_boxesSpec d₁) ∧
    load_boxes ⟨[['a'], ['b'], ['c'], ['d']],
        [mkRat 9 10, mkRat 1 2, mkRat 3 4, mkRat 74999 100000],
        [(0, 0, 1, 1), (2, 2, 3, 3), (4, 4, 5, 5), (6, 6, 7, 7)]⟩ =
      Except.ok [Box.make ['a'] (0, 0, 1, 1) (mkRat 9 10), Box.make ['c'] (4, 4, 5, 5) (mkRat 3 4)] := by
  constructor
  · rcases d₁ with ⟨ts, ss, bs⟩
    have := load_boxesAux_range ts ss bs h1 h2 []
    simpa [load_boxes] using this
  · rfl

/-- Witness for `load_boxes_filter`: applied to the four-detection record of
the claim. -/
theorem load_boxes_filter_witness :
    load_boxes ⟨[['a'], ['b'], ['c'], ['d']],
        [mkRat 9 10, mkRat 1 2, mkRat 3 4, mkRat 74999 100000],
        [(0, 0, 1, 1), (2, 2, 3, 3), (4, 4, 5, 5), (6, 6, 7, 7)]⟩ =
      Except.ok (load_boxesSpec ⟨[['a'], ['b'], ['c'], ['d']],
        [mkRat 9 10, mkRat 1 2, mkRat 3 4, mkRat 74999 100000],
        [(0, 0, 1, 1), (2, 2, 3, 3), (4, 4, 5, 5), (6, 6, 7, 7)]⟩) :=
  (load_boxes_filter ⟨[['a'], ['b'], ['c'], ['d']],
      [mkRat 9 10, mkRat 1 2, mkRat 3 4, mkRat 74999 100000],
      [(0, 0, 1, 1), (2, 2, 3, 3), (4, 4, 5, 5), (6, 6, 7, 7)]⟩ rfl rfl).1

/-! ### Claim C5: error propagation in the batch driver

`Page.load_data`/`load_boxes` do fail on an absent or malformed record, but
the loop in `Pager.run` contains no exception handling, so the failure
aborts the whole batch instead of being fatal for that page only. -/

/-- Claim C5 (evaluation of the code): with a malformed first record (array
lengths 1/0/0) or an absent one, the batch driver returns the error and the
following well-formed page — which loads fine on its own — is never
processed. -/
theorem pager_abort_on_bad_page :
    Pager.run [some { rec_texts := [['x']], rec_scores := [], rec_boxes := [] },
        some { rec_texts := [['A']], rec_scores := [mkRat 9 10],
               rec_boxes := [(0, 0, 10, 10)] }] = Except.error () ∧
    Pager.run [none,
        some { rec_texts := [['A']], rec_scores := [mkRat 9 10],
               rec_boxes := [(0, 0, 10, 10)] }] = Except.error () ∧
    Pager.run [some { rec_texts := [['A']], rec_scores := [mkRat 9 10],
                      rec_boxes := [(0, 0, 10, 10)] }] =
      Except.ok [[{ boxes := [Box.make ['A'] (0, 0, 10, 10) (mkRat 9 10)],
                    full_text := ['A'], full_box := (0, 0, 10, 10),
                    translation := [] }]] :=
  ⟨rfl, rfl, rfl⟩

/-! ### Claims C2 and C3: region assembly -/

theorem foldl_append_strip (bs : List Box) (acc : List Char) :
    bs.foldl (fun a b => a ++ pyStrip b.text) acc =
      acc ++ (bs.map (fun b => pyStrip b.text)).flatten := by
  induction bs generalizing acc with
  | nil => simp
  | cons b bt ih => simp [ih]

/-- Claim C2 (general law): `finish_init` assembles the members' stripped
texts in reverse insertion order. -/
theorem finish_init_full_text (g : BoxGroup) :
    (BoxGroup.finish_init g).full_text =
      g.full_text ++ (g.boxes.reverse.map (fun b => pyStrip b.text)).flatten := by
  unfold BoxGroup.finish_init
  exact foldl_append_strip g.boxes.reverse g.full_text

/-- Claim C2: the assembled text of a region is the concatenation of the
members' stripped texts in reverse discovery order; in particular the two
overlapping boxes `[0,0,10,10]` "A" and `[5,5,15,15]` "あ" (in that input
order) yield the single region with text "あA" and rectangle
`{x:0, y:0, w:15, h:15}`. -/
theorem finish_init_text_reverse_order :
    (∀ g : BoxGroup, (BoxGroup.finish_init g).full_text =
      g.full_text ++ (g.boxes.reverse.map (fun b => pyStrip b.text)).flatten) ∧
    Page.make_groups [Box.make ['A'] (0, 0, 10, 10) (mkRat 9 10),
        Box.make ['あ'] (5, 5, 15, 15) (mkRat 9 10)] =
      [{ boxes := [Box.make ['A'] (0, 0, 10, 10) (mkRat 9 10),
                   Box.make ['あ'] (5, 5, 15, 15) (mkRat 9 10)],
         full_text := ['あ', 'A'], full_box := (0, 0, 15, 15),
         translation := [] }] :=
  ⟨finish_init_full_text, rfl⟩

theorem foldl_box_fold (bs : List Box) (t : ℤ × ℤ × ℤ × ℤ) :
    bs.foldl (fun fb b =>
        (min b.x fb.1, min b.y fb.2.1, max (b.x + b.w) fb.2.2.1,
          max (b.y + b.h) fb.2.2.2)) t =
      ((bs.map Box.x).foldl (fun a v => min v a) t.1,
       (bs.map Box.y).foldl (fun a v => min v a) t.2.1,
       (bs.map (fun b => b.x + b.w)).foldl (fun a v => max v a) t.2.2.1,
       (bs.map (fun b => b.y + b.h)).foldl (fun a v => max v a) t.2.2.2) := by
  induction bs generalizing t with
  | nil => rfl
  | cons c ct ih => simp only [List.map_cons, List.foldl_cons]; exact ih _

theorem foldl_min_flip (l : List ℤ) (a : ℤ) :
    l.foldl (fun x y => min y x) a = l.foldl min a := by
  induction l generalizing a with
  | nil => rfl
  | cons c ct ih => simp only [List.foldl_cons, ih, min_comm]

theorem foldl_max_flip (l : List ℤ) (a : ℤ) :
    l.foldl (fun x y => max y x) a = l.foldl max a := by
  induction l generalizing a with
  | nil => rfl
  | cons c ct ih => simp only [List.foldl_cons, ih, max_comm]

theorem foldl_min_le_init (l : List ℤ) (a : ℤ) : l.foldl min a ≤ a := by
  induction l generalizing a with
  | nil => exact le_refl a
  | cons c ct ih => exact le_trans (ih (min a c)) (min_le_left a c)

theorem foldl_min_le_mem (l : List ℤ) (a x : ℤ) (hx : x ∈ l) : l.foldl min a ≤ x := by
  induction l generalizing a with
  | nil => simp at hx
  | cons c ct ih =>
    rcases List.mem_cons.mp hx with rfl | hx'
    · exact le_trans (foldl_min_le_init ct (min a x)) (min_le_right a x)
    · exact ih (min a c) hx'

theorem le_foldl_min (l : List ℤ) (a c : ℤ) (h1 : c ≤ a) (h2 : ∀ x ∈ l, c ≤ x) :
    c ≤ l.foldl min a := by
  induction l generalizing a with
  | nil => exact h1
  | cons d dt ih =>
    exact ih (min a d) (le_min h1 (h2 d (List.mem_cons_self d dt)))
      (fun x hx => h2 x (List.mem_cons_of_mem d hx))

theorem init_le_foldl_max (l : List ℤ) (a : ℤ) : a ≤ l.foldl max a := by
  induction l generalizing a with
  | nil => exact le_refl a
  | cons c ct ih => exact le_trans (le_max_left a c) (ih (max a c))

theorem mem_le_foldl_max (l : List ℤ) (a x : ℤ) (hx : x ∈ l) : x ≤ l.foldl max a := by
  induction l generalizing a with
  | nil => simp at hx
  | cons c ct ih =>
    rcases List.mem_cons.mp hx with rfl | hx'
    · exact le_trans (le_max_right a x) (init_le_foldl_max ct (max a x))
    · exact ih (max a c) hx'

theorem foldl_max_le (l : List ℤ) (a c : ℤ) (h1 : a ≤ c) (h2 : ∀ x ∈ l, x ≤ c) :
    l.foldl max a ≤ c := by
  induction l generalizing a with
  | nil => exact h1
  | cons d dt ih =>
    exact ih (max a d) (max_le h1 (h2 d (List.mem_cons_self d dt)))
      (fun x hx => h2 x (List.mem_cons_of_mem d hx))

theorem seededGroup_full_box (b : Box) (rest : List Box) :
    (seededGroup b rest).full_box =
      ((rest.map Box.x).foldl min b.x,
       (rest.map Box.y).foldl min b.y,
       (rest.map (fun m => m.x + m.w)).foldl max (b.x + b.w) -
         (rest.map Box.x).foldl min b.x,
       (rest.map (fun m => m.y + m.h)).foldl max (b.y + b.h) -
         (rest.map Box.y).foldl min b.y) := by
  unfold seededGroup BoxGroup.finish_init BoxGroup.init
  simp only [foldl_box_fold, List.map_cons, List.foldl_cons, min_self, max_self,
    foldl_min_flip, foldl_max_flip]

/-- Claim C3: after `finish_init` the enclosing rectangle of a region seeded
from `b` with later members `rest` has `x`/`y` the member minima and
`x+w`/`y+h` the member maxima; it contains every member's rectangle, it is
minimal among rectangles doing so, and a singleton region keeps the seed's
rectangle. -/
theorem finish_init_rect (b : Box) (rest : List Box) :
    ((seededGroup b rest).full_box.1 = (rest.map Box.x).foldl min b.x ∧
      (seededGroup b rest).full_box.2.1 = (rest.map Box.y).foldl min b.y ∧
      (seededGroup b rest).full_box.1 + (seededGroup b rest).full_box.2.2.1 =
        (rest.map (fun m => m.x + m.w)).foldl max (b.x + b.w) ∧
      (seededGroup b rest).full_box.2.1 + (seededGroup b rest).full_box.2.2.2 =
        (rest.map (fun m => m.y + m.h)).foldl max (b.y + b.h)) ∧
    (∀ m ∈ b :: rest,
      (seededGroup b rest).full_box.1 ≤ m.x ∧
      (seededGroup b rest).full_box.2.1 ≤ m.y ∧
      m.x + m.w ≤ (seededGroup b rest).full_box.1 + (seededGroup b rest).full_box.2.2.1 ∧
      m.y + m.h ≤ (seededGroup b rest).full_box.2.1 + (seededGroup b rest).full_box.2.2.2) ∧
    (∀ rx ry rw rh : ℤ,
      (∀ m ∈ b :: rest,
        rx ≤ m.x ∧ ry ≤ m.y ∧ m.x + m.w ≤ rx + rw ∧ m.y + m.h ≤ ry + rh) →
      rx ≤ (seededGroup b rest).full_box.1 ∧
      ry ≤ (seededGroup b rest).full_box.2.1 ∧
      (seededGroup b rest).full_box.1 + (seededGroup b rest).full_box.2.2.1 ≤ rx + rw ∧
      (seededGroup b rest).full_box.2.1 + (seededGroup b rest).full_box.2.2.2 ≤ ry + rh) ∧
    (rest = [] → (seededGroup b rest).full_box = (b.x, b.y, b.w, b.h)) := by
  rw [seededGroup_full_box b rest]
  dsimp only
  refine ⟨⟨rfl, rfl, by ring, by ring⟩, ?_, ?_, ?_⟩
  · intro m hm
    rcases List.mem_cons.mp hm with rfl | hm'
    · exact ⟨foldl_min_le_init _ _, foldl_min_le_init _ _,
        by have := init_le_foldl_max (rest.map (fun v => v.x + v.w)) (m.x + m.w); omega,
        by have := init_le_foldl_max (rest.map (fun v => v.y + v.h)) (m.y + m.h); omega⟩
    · refine ⟨foldl_min_le_mem _ _ _ (List.mem_map_of_mem Box.x hm'),
        foldl_min_le_mem _ _ _ (List.mem_map_of_mem Box.y hm'), ?_, ?_⟩
      · have := mem_le_foldl_max (rest.map (fun v => v.x + v.w)) (b.x + b.w)
          (m.x + m.w) (List.mem_map_of_mem _ hm')
        omega
      · have := mem_le_foldl_max (rest.map (fun v => v.y + v.h)) (b.y + b.h)
          (m.y + m.h) (List.mem_map_of_mem _ hm')
        omega
  · intro rx ry rw rh hcont
    have hb := hcont b (List.mem_cons_self b rest)
    have h1 : rx ≤ (rest.map Box.x).foldl min b.x :=
      le_foldl_min _ _ _ hb.1 (fun v hv => by
        rcases List.mem_map.mp hv with ⟨m, hm, rfl⟩
        exact (hcont m (List.mem_cons_of_mem b hm)).1)
    have h2 : ry ≤ (rest.map Box.y).foldl min b.y :=
      le_foldl_min _ _ _ hb.2.1 (fun v hv => by
        rcases List.mem_map.mp hv with ⟨m, hm, rfl⟩
        exact (hcont m (List.mem_cons_of_mem b hm)).2.1)
    have h3 : (rest.map (fun m => m.x + m.w)).foldl max (b.x + b.w) ≤ rx + rw :=
      foldl_max_le _ _ _ hb.2.2.1 (fun v hv => by
        rcases List.mem_map.mp hv with ⟨m, hm, rfl⟩
        exact (hcont m (List.mem_cons_of_mem b hm)).2.2.1)
    have h4 : (rest.map (fun m => m.y + m.h)).foldl max (b.y + b.h) ≤ ry + rh :=
      foldl_max_le _ _ _ hb.2.2.2 (fun v hv => by
        rcases List.mem_map.mp hv with ⟨m, hm, rfl⟩
        exact (hcont m (List.mem_cons_of_mem b hm)).2.2.2)
    exact ⟨h1, h2, by omega, by omega⟩
  · rintro rfl
    simp only [List.map_nil, List.foldl_nil]
    have hx : b.x + b.w - b.x = b.w := by ring
    have hy : b.y + b.h - b.y = b.h := by ring
    rw [hx, hy]

/-- Witness for `finish_init_rect`: the two concrete boxes of the end-to-end
scenario, with minimality instantiated at the rectangle `(0,0,20,20)`. -/
theorem finish_init_rect_witness :
    (0 : ℤ) ≤ (seededGroup (Box.make ['A'] (0, 0, 10, 10) (mkRat 9 10))
        [Box.make ['B'] (5, 5, 15, 15) (mkRat 9 10)]).full_box.1 ∧
      (0 : ℤ) ≤ (seededGroup (Box.make ['A'] (0, 0, 10, 10) (mkRat 9 10))
        [Box.make ['B'] (5, 5, 15, 15) (mkRat 9 10)]).full_box.2.1 ∧
      (seededGroup (Box.make ['A'] (0, 0, 10, 10) (mkRat 9 10))
          [Box.make ['B'] (5, 5, 15, 15) (mkRat 9 10)]).full_box.1 +
        (seededGroup (Box.make ['A'] (0, 0, 10, 10) (mkRat 9 10))
          [Box.make ['B'] (5, 5, 15, 15) (mkRat 9 10)]).full_box.2.2.1 ≤ 0 + 20 ∧
      (seededGroup (Box.make ['A'] (0, 0, 10, 10) (mkRat 9 10))
          [Box.make ['B'] (5, 5, 15, 15) (mkRat 9 10)]).full_box.2.1 +
        (seededGroup (Box.make ['A'] (0, 0, 10, 10) (mkRat 9 10))
          [Box.make ['B'] (5, 5, 15, 15) (mkRat 9 10)]).full_box.2.2.2 ≤ 0 + 20 :=
  (finish_init_rect (Box.make ['A'] (0, 0, 10, 10) (mkRat 9 10))
      [Box.make ['B'] (5, 5, 15, 15) (mkRat 9 10)]).2.2.1 0 0 20 20 (by decide)

/-! ### Invariants of the clustering traversal (for Claims C1 and C9) -/

theorem Box.overlaps_comm (A C : Box) : A.overlaps C = C.overlaps A := by
  rw [Bool.eq_iff_iff]
  simp only [Box.overlaps, Bool.and_eq_true, decide_eq_true_eq]
  omega

/-- Adjacency of two fragments of the page: their boxes overlap. -/
def adjP {n : ℕ} (B : Fin n → Box) (a b : Fin n) : Prop :=
  (B a).overlaps (B b) = true

theorem adjP_symm {n : ℕ} (B : Fin n → Box) : Symmetric (adjP B) := by
  intro a b h
  unfold adjP at h ⊢
  rw [Box.overlaps_comm]
  exact h

/-- A fold whose every step appends the same suffix to both state components
appends one overall suffix to both. -/
theorem foldl_shape {α β : Type} (f : List α × List α → β → List α × List α)
    (hf : ∀ st x, ∃ δ, f st x = (st.1 ++ δ, st.2 ++ δ)) :
    ∀ (l : List β) (st : List α × List α), ∃ Δ, l.foldl f st = (st.1 ++ Δ, st.2 ++ Δ) := by
  intro l
  induction l with
  | nil => intro st; exact ⟨[], by simp⟩
  | cons x xs ih =>
    intro st
    rcases hf st x with ⟨δ, hδ⟩
    rcases ih (f st x) with ⟨Δ, hΔ⟩
    refine ⟨δ ++ Δ, ?_⟩
    rw [List.foldl_cons, hΔ, hδ]
    simp [List.append_assoc]

theorem find_next_neighbor_shape {n : ℕ} (B : Fin n → Box) :
    ∀ (fuel : ℕ) (i : Fin n) (st : List (Fin n) × List (Fin n)),
      ∃ Δ, find_next_neighbor B fuel i st = (st.1 ++ Δ, st.2 ++ Δ) := by
  intro fuel
  induction fuel with
  | zero => intro i st; exact ⟨[], by simp [find_next_neighbor]⟩
  | succ fuel ih =>
    intro i st
    rw [find_next_neighbor_succ]
    refine foldl_shape _ ?_ _ st
    intro st' j
    unfold fnnStep
    split
    · rcases ih j (st'.1 ++ [j], st'.2 ++ [j]) with ⟨δ, hδ⟩
      exact ⟨j :: δ, by rw [hδ]; simp⟩
    · exact ⟨[], by simp⟩

theorem fnnStep_shape {n : ℕ} (B : Fin n → Box) (fuel : ℕ) (i : Fin n) :
    ∀ (st : List (Fin n) × List (Fin n)) (j : Fin n),
      ∃ δ, fnnStep B fuel i st j = (st.1 ++ δ, st.2 ++ δ) := by
  intro st j
  unfold fnnStep
  split
  · rcases find_next_neighbor_shape B fuel j (st.1 ++ [j], st.2 ++ [j]) with ⟨δ, hδ⟩
    exact ⟨j :: δ, by rw [hδ]; simp⟩
  · exact ⟨[], by simp⟩

theorem foldl_preserve {β σ : Type} (f : σ → β → σ) (P : σ → Prop)
    (hf : ∀ st x, P st → P (f st x)) :
    ∀ (l : List β) (st : σ), P st → P (l.foldl f st) := by
  intro l
  induction l with
  | nil => intro st h; exact h
  | cons x xs ih => intro st h; exact ih (f st x) (hf st x h)

theorem find_next_neighbor_nodup {n : ℕ} (B : Fin n → Box) :
    ∀ (fuel : ℕ) (i : Fin n) (st : List (Fin n) × List (Fin n)),
      st.2.Nodup → ((find_next_neighbor B fuel i st).2).Nodup := by
  intro fuel
  induction fuel with
  | zero => intro i st h; exact h
  | succ fuel ih =>
    intro i st h
    rw [find_next_neighbor_succ]
    refine foldl_preserve (fnnStep B fuel i) (fun s => s.2.Nodup) ?_ _ st h
    intro s j hs
    unfold fnnStep
    split
    · rename_i hcond
      refine ih j (s.1 ++ [j], s.2 ++ [j]) ?_
      exact List.Nodup.append hs (List.nodup_singleton j)
        (by simpa [List.disjoint_singleton] using hcond.2)
    · exact hs

theorem loop_all_processed {n : ℕ} (B : Fin n → Box) (fuel : ℕ) (i : Fin n) :
    ∀ (js : List (Fin n)) (st : List (Fin n) × List (Fin n)),
      (∀ j : Fin n, j ∈ st.2) → js.foldl (fnnStep B fuel i) st = st := by
  intro js
  induction js with
  | nil => intro st _; rfl
  | cons j js ih =>
    intro st hall
    rw [List.foldl_cons,
      show fnnStep B fuel i st j = st from by unfold fnnStep; rw [if_neg]; simp [hall j]]
    exact ih st hall

/-- Everything the traversal adds to the group is reachable (by an overlap
chain) from anything already known reachable. -/
theorem find_next_neighbor_sound {n : ℕ} (B : Fin n → Box) :
    ∀ (fuel : ℕ) (i : Fin n) (st : List (Fin n) × List (Fin n)) (s : Fin n),
      Relation.ReflTransGen (adjP B) s i →
      (∀ x ∈ st.1, Relation.ReflTransGen (adjP B) s x) →
      ∀ x ∈ (find_next_neighbor B fuel i st).1, Relation.ReflTransGen (adjP B) s x := by
  intro fuel
  induction fuel with
  | zero => intro i st s _ hst x hx; exact hst x hx
  | succ fuel ih =>
    intro i st s hsi hst
    rw [find_next_neighbor_succ]
    have : ∀ (js : List (Fin n)) (st' : List (Fin n) × List (Fin n)),
        (∀ x ∈ st'.1, Relation.ReflTransGen (adjP B) s x) →
        ∀ x ∈ (js.foldl (fnnStep B fuel i) st').1, Relation.ReflTransGen (adjP B) s x := by
      intro js
      induction js with
      | nil => intro st' h x hx; exact h x hx
      | cons j js ihj =>
        intro st' h
        rw [List.foldl_cons]
        refine ihj (fnnStep B fuel i st' j) ?_
        unfold fnnStep
        split
        · rename_i hcond
          have hsj : Relation.ReflTransGen (adjP B) s j :=
            hsi.tail (adjP_symm B hcond.1)
          refine ih j (st'.1 ++ [j], st'.2 ++ [j]) s hsj ?_
          intro x hx
          rcases List.mem_append.mp hx with hx1 | hx2
          · exact h x hx1
          · simp only [List.mem_singleton] at hx2
            exact hx2 ▸ hsj
        · exact h
    exact this (List.finRange n) st hst

theorem toFinset_card_append_singleton {n : ℕ} (l : List (Fin n)) (j : Fin n)
    (h : j ∉ l) : (l ++ [j]).toFinset.card = l.toFinset.card + 1 := by
  have : (l ++ [j]).toFinset = insert j l.toFinset := by
    ext x
    simp [or_comm]
  rw [this, Finset.card_insert_of_not_mem (by simpa using h)]

theorem toFinset_card_le_append {n : ℕ} (l e : List (Fin n)) :
    l.toFinset.card ≤ (l ++ e).toFinset.card := by
  refine Finset.card_le_card ?_
  intro x hx
  simp only [List.mem_toFinset, List.mem_append] at hx ⊢
  exact Or.inl hx

/-- After a sufficiently fuelled call on centre `i`, no unprocessed box
overlaps `i`, nor any of the newly claimed boxes: the produced group is
overlap-closed against everything still unclaimed. -/
theorem find_next_neighbor_closed {n : ℕ} (B : Fin n → Box) :
    ∀ (fuel : ℕ) (i : Fin n) (st : List (Fin n) × List (Fin n)),
      n - st.2.toFinset.card ≤ fuel →
      (∀ y : Fin n, y ∉ (find_next_neighbor B fuel i st).2 →
        (B y).overlaps (B i) = false) ∧
      (∀ m, m ∈ (find_next_neighbor B fuel i st).2 → m ∉ st.2 →
        ∀ y : Fin n, y ∉ (find_next_neighbor B fuel i st).2 →
          (B y).overlaps (B m) = false) := by
  intro fuel
  induction fuel with
  | zero =>
    intro i st hcard
    have hall : ∀ y : Fin n, y ∈ st.2 := by
      have h2 : st.2.toFinset = Finset.univ := by
        refine st.2.toFinset.eq_univ_of_card ?_
        have hle : st.2.toFinset.card ≤ Fintype.card (Fin n) := st.2.toFinset.card_le_univ
        rw [Fintype.card_fin] at hle ⊢
        omega
      intro y
      rw [← List.mem_toFinset, h2]
      exact Finset.mem_univ y
    constructor
    · intro y hy; exact absurd (hall y) hy
    · intro m _ hm; exact absurd (hall m) hm
  | succ fuel ih =>
    intro i st hcard
    rw [find_next_neighbor_succ]
    have loop : ∀ (js : List (Fin n)) (st' : List (Fin n) × List (Fin n)),
        n - st'.2.toFinset.card ≤ fuel + 1 →
        (∀ y ∈ js, y ∉ (js.foldl (fnnStep B fuel i) st').2 →
          (B y).overlaps (B i) = false) ∧
        (∀ m, m ∈ (js.foldl (fnnStep B fuel i) st').2 → m ∉ st'.2 →
          ∀ y : Fin n, y ∉ (js.foldl (fnnStep B fuel i) st').2 →
            (B y).overlaps (B m) = false) := by
      intro js
      induction js with
      | nil =>
        intro st' _
        exact ⟨by simp, fun m hm2 hm3 => absurd hm2 hm3⟩
      | cons j js ihj =>
        intro st' hc
        rw [List.foldl_cons]
        by_cases hcond : (B j).overlaps (B i) = true ∧ j ∉ st'.2
        · have hstep : fnnStep B fuel i st' j =
              find_next_neighbor B fuel j (st'.1 ++ [j], st'.2 ++ [j]) := by
            unfold fnnStep; rw [if_pos hcond]
          have hcard1 : n - ((st'.2 ++ [j]).toFinset.card) ≤ fuel := by
            rw [toFinset_card_append_singleton _ j hcond.2]; omega
          have hnested := ih j (st'.1 ++ [j], st'.2 ++ [j]) hcard1
          rcases find_next_neighbor_shape B fuel j (st'.1 ++ [j], st'.2 ++ [j]) with ⟨Δ, hΔ⟩
          have hsub1 : ∀ x, x ∈ st'.2 ++ [j] →
              x ∈ (find_next_neighbor B fuel j (st'.1 ++ [j], st'.2 ++ [j])).2 := by
            intro x hx
            rw [hΔ]
            exact List.mem_append.mpr (Or.inl hx)
          have hcardst1 :
              n - (find_next_neighbor B fuel j (st'.1 ++ [j], st'.2 ++ [j])).2.toFinset.card ≤
                fuel + 1 := by
            have hmono : st'.2.toFinset.card ≤
                (find_next_neighbor B fuel j (st'.1 ++ [j], st'.2 ++ [j])).2.toFinset.card := by
              rw [hΔ]
              calc st'.2.toFinset.card
                  ≤ (st'.2 ++ [j]).toFinset.card := toFinset_card_le_append _ _
                _ ≤ ((st'.2 ++ [j]) ++ Δ).toFinset.card := toFinset_card_le_append _ _
            omega
          have hloop := ihj (find_next_neighbor B fuel j (st'.1 ++ [j], st'.2 ++ [j])) hcardst1
          rcases foldl_shape _ (fnnStep_shape B fuel i) js
            (find_next_neighbor B fuel j (st'.1 ++ [j], st'.2 ++ [j])) with ⟨Δ2, hΔ2⟩
          have hsub2 : ∀ x, x ∈ (find_next_neighbor B fuel j (st'.1 ++ [j], st'.2 ++ [j])).2 →
              x ∈ (js.foldl (fnnStep B fuel i)
                (find_next_neighbor B fuel j (st'.1 ++ [j], st'.2 ++ [j]))).2 := by
            intro x hx
            rw [hΔ2]
            exact List.mem_append.mpr (Or.inl hx)
          rw [hstep]
          constructor
          · intro y hy hyR
            rcases List.mem_cons.mp hy with rfl | hyjs
            · exact absurd (hsub2 _ (hsub1 _ (List.mem_append.mpr
                (Or.inr (List.mem_singleton_self _))))) hyR
            · exact hloop.1 y hyjs hyR
          · intro m hmR hmn y hyR
            by_cases hm1 : m ∈ (find_next_neighbor B fuel j (st'.1 ++ [j], st'.2 ++ [j])).2
            · by_cases hm2 : m ∈ st'.2 ++ [j]
              · rcases List.mem_append.mp hm2 with hm3 | hm4
                · exact absurd hm3 hmn
                · simp only [List.mem_singleton] at hm4
                  subst hm4
                  exact hnested.1 y (fun hy1 => hyR (hsub2 _ hy1))
              · exact hnested.2 m hm1 hm2 y (fun hy1 => hyR (hsub2 _ hy1))
            · exact hloop.2 m hmR hm1 y hyR
        · have hstep : fnnStep B fuel i st' j = st' := by
            unfold fnnStep; rw [if_neg hcond]
          rw [hstep]
          have hloop := ihj st' hc
          rcases foldl_shape _ (fnnStep_shape B fuel i) js st' with ⟨Δ2, hΔ2⟩
          constructor
          · intro y hy hyR
            rcases List.mem_cons.mp hy with rfl | hyjs
            · rcases not_and_or.mp hcond with hov | hmem
              · exact Bool.eq_false_iff.mpr hov
              · refine absurd ?_ hyR
                rw [hΔ2]
                exact List.mem_append.mpr (Or.inl (not_not.mp hmem))
            · exact hloop.1 y hyjs hyR
          · intro m hmR hmn y hyR
            exact hloop.2 m hmR hmn y hyR
    have hres := loop (List.finRange n) st hcard
    exact ⟨fun y hy => hres.1 y (List.mem_finRange y) hy, hres.2⟩

theorem all_processed_of_card {n : ℕ} (l : List (Fin n)) (h : n ≤ l.toFinset.card) :
    ∀ y : Fin n, y ∈ l := by
  have h2 : l.toFinset = Finset.univ := by
    refine l.toFinset.eq_univ_of_card ?_
    have hle : l.toFinset.card ≤ Fintype.card (Fin n) := l.toFinset.card_le_univ
    rw [Fintype.card_fin] at hle ⊢
    omega
  intro y
  rw [← List.mem_toFinset, h2]
  exact Finset.mem_univ y

/-- Extra recursion budget beyond the remaining number of unclaimed boxes
changes nothing: the Python recursion depth is bounded by the claimed set. -/
theorem find_next_neighbor_stable {n : ℕ} (B : Fin n → Box) :
    ∀ (fuel : ℕ) (i : Fin n) (st : List (Fin n) × List (Fin n)),
      n - st.2.toFinset.card ≤ fuel →
      find_next_neighbor B (fuel + 1) i st = find_next_neighbor B fuel i st := by
  intro fuel
  induction fuel with
  | zero =>
    intro i st hcard
    rw [find_next_neighbor_succ,
      loop_all_processed B 0 i (List.finRange n) st (all_processed_of_card st.2 (by omega))]
    rfl
  | succ fuel ih =>
    intro i st hcard
    rw [find_next_neighbor_succ, find_next_neighbor_succ]
    have loop : ∀ (js : List (Fin n)) (st' : List (Fin n) × List (Fin n)),
        n - st'.2.toFinset.card ≤ fuel + 1 →
        js.foldl (fnnStep B (fuel + 1) i) st' = js.foldl (fnnStep B fuel i) st' := by
      intro js
      induction js with
      | nil => intro st' _; rfl
      | cons j js ihj =>
        intro st' hc
        rw [List.foldl_cons, List.foldl_cons]
        by_cases hcond : (B j).overlaps (B i) = true ∧ j ∉ st'.2
        · have hstep1 : fnnStep B (fuel + 1) i st' j =
              find_next_neighbor B (fuel + 1) j (st'.1 ++ [j], st'.2 ++ [j]) := by
            unfold fnnStep; rw [if_pos hcond]
          have hstep0 : fnnStep B fuel i st' j =
              find_next_neighbor B fuel j (st'.1 ++ [j], st'.2 ++ [j]) := by
            unfold fnnStep; rw [if_pos hcond]
          have hcard1 : n - (st'.2 ++ [j]).toFinset.card ≤ fuel := by
            rw [toFinset_card_append_singleton _ j hcond.2]; omega
          have heq := ih j (st'.1 ++ [j], st'.2 ++ [j]) hcard1
          rw [hstep1, hstep0, heq]
          refine ihj _ ?_
          rcases find_next_neighbor_shape B fuel j (st'.1 ++ [j], st'.2 ++ [j]) with ⟨Δ, hΔ⟩
          have hmono : st'.2.toFinset.card ≤
              (find_next_neighbor B fuel j (st'.1 ++ [j], st'.2 ++ [j])).2.toFinset.card := by
            rw [hΔ]
            calc st'.2.toFinset.card
                ≤ (st'.2 ++ [j]).toFinset.card := toFinset_card_le_append _ _
              _ ≤ ((st'.2 ++ [j]) ++ Δ).toFinset.card := toFinset_card_le_append _ _
          omega
        · have hstep1 : fnnStep B (fuel + 1) i st' j = st' := by
            unfold fnnStep; rw [if_neg hcond]
          have hstep0 : fnnStep B fuel i st' j = st' := by
            unfold fnnStep; rw [if_neg hcond]
          rw [hstep1, hstep0]
          exact ihj st' hc
    exact loop (List.finRange n) st hcard

theorem find_next_neighbor_stable_add {n : ℕ} (B : Fin n → Box) :
    ∀ (k fuel : ℕ) (i : Fin n) (st : List (Fin n) × List (Fin n)),
      n - st.2.toFinset.card ≤ fuel →
      find_next_neighbor B (fuel + k) i st = find_next_neighbor B fuel i st := by
  intro k
  induction k with
  | zero => intro fuel i st _; rfl
  | succ k ihk =>
    intro fuel i st h
    rw [show fuel + (k + 1) = (fuel + k) + 1 from rfl,
      find_next_neighbor_stable B (fuel + k) i st (le_trans h (Nat.le_add_right fuel k))]
    exact ihk fuel i st h

theorem make_groupsAux_fuel {n : ℕ} (B : Fin n → Box) :
    ∀ (bs : List (Fin n)) (groups : List (List (Fin n))) (proc : List (Fin n)) (extra : ℕ),
      make_groupsAux B (n + extra) bs groups proc = make_groupsAux B n bs groups proc := by
  intro bs
  induction bs with
  | nil => intro groups proc extra; rfl
  | cons b bs ih =>
    intro groups proc extra
    by_cases hb : b ∉ proc
    · simp only [make_groupsAux, if_pos hb]
      rw [find_next_neighbor_stable_add B extra n b ([b], proc ++ [b]) (Nat.sub_le _ _)]
      exact ih _ _ extra
    · simp only [make_groupsAux, if_neg hb]
      exact ih groups proc extra

theorem make_groupsAux_nodup {n : ℕ} (B : Fin n → Box) (fuel : ℕ) :
    ∀ (bs : List (Fin n)) (groups : List (List (Fin n))) (proc : List (Fin n)),
      proc.Nodup → ((make_groupsAux B fuel bs groups proc).2).Nodup := by
  intro bs
  induction bs with
  | nil => intro groups proc h; exact h
  | cons b bs ih =>
    intro groups proc h
    by_cases hb : b ∉ proc
    · simp only [make_groupsAux, if_pos hb]
      refine ih _ _ (find_next_neighbor_nodup B fuel b ([b], proc ++ [b]) ?_)
      exact List.Nodup.append h (List.nodup_singleton b)
        (by simpa [List.disjoint_singleton] using hb)
    · simp only [make_groupsAux, if_neg hb]
      exact ih groups proc h

/-- Claim C9: the clustering traversal terminates.  A recursion budget of `n`
(the number of boxes) already reaches the fixed point — any extra budget
yields the same groups, because each recursive call claims a fresh box out
of a pool of at most `n` — and the claimed list (`processed_boxes`) never
holds a fragment twice. -/
theorem make_groups_terminating {n : ℕ} (B : Fin n → Box) :
    (∀ extra : ℕ, make_groupsIdxF B (n + extra) = make_groupsIdxF B n) ∧
    ((make_groupsAux B n (List.finRange n) [] []).2).Nodup := by
  constructor
  · intro extra
    unfold make_groupsIdxF
    rw [make_groupsAux_fuel B (List.finRange n) [] [] extra]
  · exact make_groupsAux_nodup B n (List.finRange n) [] [] List.nodup_nil

/-- The running invariant of the `make_groups` loop: `processed_boxes` is
exactly the concatenation of the groups built so far, without duplicates;
every built group is overlap-closed against the unclaimed boxes; distinct
groups never overlap; and members of one group are mutually connected by
overlap chains. -/
def clusterInv {n : ℕ} (B : Fin n → Box) (groups : List (List (Fin n)))
    (proc : List (Fin n)) : Prop :=
  proc = groups.flatten ∧
  proc.Nodup ∧
  (∀ g ∈ groups, ∀ m ∈ g, ∀ y : Fin n, y ∉ proc → (B y).overlaps (B m) = false) ∧
  List.Pairwise (fun g g' => ∀ m ∈ g, ∀ y ∈ g',
    (B y).overlaps (B m) = false ∧ (B m).overlaps (B y) = false) groups ∧
  (∀ g ∈ groups, ∀ a ∈ g, ∀ c ∈ g, Relation.ReflTransGen (adjP B) a c)

theorem make_groupsAux_ext {n : ℕ} (B : Fin n → Box) (fuel : ℕ) :
    ∀ (bs : List (Fin n)) (groups : List (List (Fin n))) (proc : List (Fin n)),
      ∃ gs ps, make_groupsAux B fuel bs groups proc = (groups ++ gs, proc ++ ps) := by
  intro bs
  induction bs with
  | nil => intro groups proc; exact ⟨[], [], by simp [make_groupsAux]⟩
  | cons b bs ih =>
    intro groups proc
    by_cases hb : b ∉ proc
    · simp only [make_groupsAux, if_pos hb]
      rcases find_next_neighbor_shape B fuel b ([b], proc ++ [b]) with ⟨Δ, hΔ⟩
      rcases ih (groups ++ [(find_next_neighbor B fuel b ([b], proc ++ [b])).1])
        ((find_next_neighbor B fuel b ([b], proc ++ [b])).2) with ⟨gs, ps, hgs⟩
      refine ⟨[(find_next_neighbor B fuel b ([b], proc ++ [b])).1] ++ gs,
        ([b] ++ Δ) ++ ps, ?_⟩
      rw [hgs, hΔ]
      simp [List.append_assoc]
    · simp only [make_groupsAux, if_neg hb]
      rcases ih groups proc with ⟨gs, ps, hgs⟩
      exact ⟨gs, ps, hgs⟩

theorem make_groupsAux_inv {n : ℕ} (B : Fin n → Box) :
    ∀ (bs : List (Fin n)) (groups : List (List (Fin n))) (proc : List (Fin n)),
      clusterInv B groups proc →
      clusterInv B (make_groupsAux B n bs groups proc).1
        (make_groupsAux B n bs groups proc).2 ∧
      ∀ x ∈ bs, x ∈ (make_groupsAux B n bs groups proc).2 := by
  intro bs
  induction bs with
  | nil => intro groups proc h; exact ⟨h, by simp⟩
  | cons b bs ih =>
    intro groups proc hInv
    obtain ⟨hjoin, hnodup, hclosed, hpair, hreach⟩ := hInv
    by_cases hb : b ∉ proc
    · simp only [make_groupsAux, if_pos hb]
      rcases find_next_neighbor_shape B n b ([b], proc ++ [b]) with ⟨Δ, hΔ⟩
      have h1 : (find_next_neighbor B n b ([b], proc ++ [b])).1 = b :: Δ := by
        rw [hΔ]; rfl
      have h2 : (find_next_neighbor B n b ([b], proc ++ [b])).2 = (proc ++ [b]) ++ Δ := by
        rw [hΔ]
      have hpb : (proc ++ [b]).Nodup :=
        List.Nodup.append hnodup (List.nodup_singleton b)
          (by simpa [List.disjoint_singleton] using hb)
      have hp2nodup : ((find_next_neighbor B n b ([b], proc ++ [b])).2).Nodup :=
        find_next_neighbor_nodup B n b ([b], proc ++ [b]) hpb
      have hΔfresh : ∀ x ∈ Δ, x ∉ proc ++ [b] := by
        intro x hx
        have := hp2nodup
        rw [h2] at this
        exact fun hmem => (List.disjoint_of_nodup_append this) hmem hx
      have hmemp2 : ∀ x, x ∈ proc ++ [b] ∨ x ∈ Δ →
          x ∈ (find_next_neighbor B n b ([b], proc ++ [b])).2 := by
        intro x hx
        rw [h2]
        exact List.mem_append.mpr hx
      have hnotp2 : ∀ y : Fin n, y ∉ (find_next_neighbor B n b ([b], proc ++ [b])).2 →
          y ∉ proc := by
        intro y hy hyp
        exact hy (hmemp2 y (Or.inl (List.mem_append.mpr (Or.inl hyp))))
      have hcl := find_next_neighbor_closed B n b ([b], proc ++ [b]) (Nat.sub_le n _)
      have hsound := find_next_neighbor_sound B n b ([b], proc ++ [b]) b
        Relation.ReflTransGen.refl
        (fun x hx => by
          simp only [List.mem_singleton] at hx
          exact hx ▸ Relation.ReflTransGen.refl)
      have hclosedNew : ∀ m ∈ b :: Δ,
          ∀ y : Fin n, y ∉ (find_next_neighbor B n b ([b], proc ++ [b])).2 →
            (B y).overlaps (B m) = false := by
        intro m hm y hy
        rcases List.mem_cons.mp hm with rfl | hmΔ
        · exact hcl.1 y hy
        · exact hcl.2 m (hmemp2 m (Or.inr hmΔ)) (hΔfresh m hmΔ) y hy
      have hmemNew : ∀ y ∈ b :: Δ, y ∉ proc := by
        intro y hy
        rcases List.mem_cons.mp hy with rfl | hyΔ
        · exact hb
        · exact fun hyp => hΔfresh y hyΔ (List.mem_append.mpr (Or.inl hyp))
      have hInv' : clusterInv B (groups ++ [(find_next_neighbor B n b ([b], proc ++ [b])).1])
          ((find_next_neighbor B n b ([b], proc ++ [b])).2) := by
        refine ⟨?_, hp2nodup, ?_, ?_, ?_⟩
        · rw [h1, h2, hjoin]
          simp
        · intro g hg m hm y hy
          rcases List.mem_append.mp hg with hgold | hgnew
          · exact hclosed g hgold m hm y (hnotp2 y hy)
          · simp only [List.mem_singleton] at hgnew
            subst hgnew
            rw [h1] at hm
            exact hclosedNew m hm y hy
        · rw [List.pairwise_append]
          refine ⟨hpair, List.pairwise_singleton _ _, ?_⟩
          intro g₀ hg₀ g' hg'
          simp only [List.mem_singleton] at hg'
          subst hg'
          intro m hm y hy
          rw [h1] at hy
          have hfirst : (B y).overlaps (B m) = false :=
            hclosed g₀ hg₀ m hm y (hmemNew y hy)
          exact ⟨hfirst, by rw [Box.overlaps_comm]; exact hfirst⟩
        · intro g hg a ha c hc
          rcases List.mem_append.mp hg with hgold | hgnew
          · exact hreach g hgold a ha c hc
          · simp only [List.mem_singleton] at hgnew
            subst hgnew
            have hra : Relation.ReflTransGen (adjP B) b a := hsound a ha
            have hrc : Relation.ReflTransGen (adjP B) b c := hsound c hc
            exact Relation.ReflTransGen.trans
              (Relation.ReflTransGen.symmetric (adjP_symm B) hra) hrc
      refine ⟨(ih _ _ hInv').1, ?_⟩
      intro x hx
      rcases List.mem_cons.mp hx with hxb | hxbs
      · rw [hxb]
        rcases make_groupsAux_ext B n bs
          (groups ++ [(find_next_neighbor B n b ([b], proc ++ [b])).1])
          ((find_next_neighbor B n b ([b], proc ++ [b])).2) with ⟨gs, ps, hgs⟩
        rw [hgs]
        exact List.mem_append.mpr (Or.inl
          (hmemp2 b (Or.inl (List.mem_append.mpr (Or.inr (List.mem_singleton_self b))))))
      · exact (ih _ _ hInv').2 x hxbs
    · simp only [make_groupsAux, if_neg hb]
      refine ⟨(ih groups proc ⟨hjoin, hnodup, hclosed, hpair, hreach⟩).1, ?_⟩
      intro x hx
      rcases List.mem_cons.mp hx with hxb | hxbs
      · rw [hxb]
        rcases make_groupsAux_ext B n bs groups proc with ⟨gs, ps, hgs⟩
        rw [hgs]
        exact List.mem_append.mpr (Or.inl (not_not.mp hb))
      · exact (ih groups proc ⟨hjoin, hnodup, hclosed, hpair, hreach⟩).2 x hxbs

theorem groupOf_boxes {n : ℕ} (B : Fin n → Box) :
    ∀ g : List (Fin n), (groupOf B g).boxes = g.map B := by
  intro g
  cases g with
  | nil => rfl
  | cons s rest => rfl

/-- Claim C1: `Page.make_groups` partitions the input fragments — the
members of all produced regions, taken together, are a permutation of the
input list, so every fragment occurrence ends up in exactly one region —
and two fragments land in the same region exactly when they are connected
by a chain of pairwise-overlapping fragments. -/
theorem make_groups_partition_connectivity (bs : List Box) :
    (((Page.make_groups bs).map BoxGroup.boxes).flatten).Perm bs ∧
    (∀ i j : Fin bs.length,
      (∃ g ∈ make_groupsIdx (fun k => bs.get k), i ∈ g ∧ j ∈ g) ↔
        Relation.ReflTransGen (adjP (fun k => bs.get k)) i j) := by
  have inv0 : clusterInv (fun k => bs.get k) [] [] :=
    ⟨rfl, List.nodup_nil, by simp, List.Pairwise.nil, by simp⟩
  obtain ⟨⟨hjoin, hnodup, hclosed, hpair, hreach⟩, htotal⟩ :=
    make_groupsAux_inv (fun k => bs.get k) (List.finRange bs.length) [] [] inv0
  have hidx : make_groupsIdx (fun k => bs.get k) =
      (make_groupsAux (fun k => bs.get k) bs.length (List.finRange bs.length) [] []).1 := rfl
  have htotal' : ∀ i : Fin bs.length,
      ∃ g ∈ make_groupsIdx (fun k => bs.get k), i ∈ g := by
    intro i
    have hmem : i ∈ (make_groupsAux (fun k => bs.get k) bs.length
        (List.finRange bs.length) [] []).2 := htotal i (List.mem_finRange i)
    rw [hjoin] at hmem
    rcases List.mem_flatten.mp hmem with ⟨g, hg, hig⟩
    exact ⟨g, hidx ▸ hg, hig⟩
  constructor
  · have hperm : ((make_groupsIdx (fun k => bs.get k)).flatten).Perm
        (List.finRange bs.length) := by
      refine (List.perm_ext_iff_of_nodup ?_ (List.nodup_finRange bs.length)).mpr ?_
      · rw [hidx, ← hjoin]
        exact hnodup
      · intro a
        constructor
        · intro _; exact List.mem_finRange a
        · intro _
          rw [hidx, ← hjoin]
          exact htotal a (List.mem_finRange a)
    have hmapeq : (Page.make_groups bs).map BoxGroup.boxes =
        (make_groupsIdx (fun k => bs.get k)).map (fun g => g.map (fun k => bs.get k)) := by
      unfold Page.make_groups
      rw [List.map_map]
      exact List.map_congr_left (fun g _ => groupOf_boxes (fun k => bs.get k) g)
    rw [hmapeq, ← List.map_flatten]
    have := hperm.map (fun k => bs.get k)
    rwa [List.finRange_map_get bs] at this
  · intro i j
    constructor
    · rintro ⟨g, hg, hig, hjg⟩
      exact hreach g (hidx ▸ hg) i hig j hjg
    · intro hconn
      induction hconn with
      | refl =>
        rcases htotal' i with ⟨g, hg, hig⟩
        exact ⟨g, hg, hig, hig⟩
      | tail hic hcj ihconn =>
        rename_i c j'
        rcases ihconn with ⟨g, hg, hig, hcg⟩
        rcases htotal' j' with ⟨g', hg', hjg'⟩
        by_cases hgg : g = g'
        · exact ⟨g, hg, hig, hgg ▸ hjg'⟩
        · exfalso
          have hsymmR : Symmetric (fun g g' : List (Fin bs.length) =>
              ∀ m ∈ g, ∀ y ∈ g',
                ((fun k => bs.get k) y).overlaps ((fun k => bs.get k) m) = false ∧
                ((fun k => bs.get k) m).overlaps ((fun k => bs.get k) y) = false) := by
            intro a c hac m hm y hy
            exact ⟨(hac y hy m hm).2, (hac y hy m hm).1⟩
          have hR := hpair.forall hsymmR (hidx ▸ hg) (hidx ▸ hg') hgg
          have hfalse := (hR c hcg j' hjg').2
          rw [hcj] at hfalse
          exact Bool.true_eq_false.mp hfalse

/-- Witness for `make_groups_partition_connectivity`: in the two-box page of
the end-to-end scenario the two overlapping fragments are placed in one
common region. -/
theorem make_groups_partition_connectivity_witness :
    ∃ g ∈ make_groupsIdx (fun k =>
        [Box.make ['A'] (0, 0, 10, 10) (mkRat 9 10),
         Box.make ['あ'] (5, 5, 15, 15) (mkRat 9 10)].get k),
      (0 : Fin 2) ∈ g ∧ (1 : Fin 2) ∈ g :=
  ((make_groups_partition_connectivity
      [Box.make ['A'] (0, 0, 10, 10) (mkRat 9 10),
       Box.make ['あ'] (5, 5, 15, 15) (mkRat 9 10)]).2 (0 : Fin 2) (1 : Fin 2)).mpr
    (Relation.ReflTransGen.single (by unfold adjP; decide))

/-- Witness for `overlaps_symm_and_spec`: the two boxes of the end-to-end
scenario overlap, via the characterisation direction of the theorem. -/
theorem overlaps_symm_and_spec_witness :
    (Box.make ['A'] (0, 0, 10, 10) (mkRat 9 10)).overlaps
      (Box.make ['あ'] (5, 5, 15, 15) (mkRat 9 10)) = true :=
  (overlaps_symm_and_spec (Box.make ['A'] (0, 0, 10, 10) (mkRat 9 10))
      (Box.make ['あ'] (5, 5, 15, 15) (mkRat 9 10))).2.mpr (by decide)
